import Mathlib

/-!
Verification of the tridiagonal (Thomas-algorithm) solver and its
parameter-assembly wrapper from `material/grad_jit_example.ipynb`.

The solver is embedded shallowly over an arbitrary field `K` (so that exact
statements can be made over `ℚ` or `ℝ`); division by a zero pivot produces the
field's junk value `x / 0 = 0`, mirroring the fact that the reference code
performs the division unguarded.  `jax.lax.scan` is modelled by `scan`,
`jnp.stack [...][:, 1:].T` over four equal-length vectors by `zip4` on tails,
`[::-1]` by `List.reverse`, `jnp.concat` by `List.cons` of the seed.
-/

section Solver

variable {K : Type} [Field K]

/-- `jax.lax.scan`: fold a step function over a list, collecting both the final
carry and the emitted outputs (one per input element). -/
def scan {C X Y : Type} (step : C → X → C × Y) : C → List X → C × List Y
  | c, [] => (c, [])
  | c, x :: xs =>
    let cy := step c x
    let rest := scan step cy.1 xs
    (rest.1, cy.2 :: rest.2)

/-- Row-wise pairing of four equal-length vectors, as produced by
`jnp.stack([a, b, c, f]).T` (truncates at the shortest list, which never
happens for the equal-length inputs the notebook uses). -/
def zip4 {α : Type} : List α → List α → List α → List α → List (α × α × α × α)
  | x :: xs, y :: ys, z :: zs, w :: ws => (x, y, z, w) :: zip4 xs ys zs ws
  | _, _, _, _ => []

/-- The forward-elimination scan body `forward_scan_scal` from the notebook:
carry `(f_{i-1}, q_{i-1})`, input row `(a_i, b_i, c_i, f_i)`. -/
def forward_scan_scal (carry : K × K) (x : K × K × K × K) : (K × K) × (K × K) :=
  let f_im1 := carry.1
  let q_im1 := carry.2
  let a := x.1
  let b := x.2.1
  let c := x.2.2.1
  let f := x.2.2.2
  let cff := 1 / (b + a * q_im1)
  let f_i := cff * (f - a * f_im1)
  let q_i := -cff * c
  ((f_i, q_i), (f_i, q_i))

/-- The backward-substitution scan body `reverse_scan_scal` from the notebook:
carry is the running solution value, input row `(q_rev, f_rev)`. -/
def reverse_scan_scal (carry : K) (x : K × K) : K × K :=
  let q_rev := x.1
  let f_rev := x.2
  let c := f_rev + q_rev * carry
  (c, c)

/-- First half of `tridiag_solve`: seed `(f[0]/b[0], -c[0]/b[0])`, scan
`forward_scan_scal` over rows `1..n-1`, and prepend the seed to the emitted
`f` and `q` streams (the two `jnp.concat` lines). -/
def forward_pass (a b c f : List K) : List K × List K :=
  let init := (f.headD 0 / b.headD 0, -c.headD 0 / b.headD 0)
  let xs := zip4 a.tail b.tail c.tail f.tail
  let fq := (scan forward_scan_scal init xs).2
  (init.1 :: fq.map Prod.fst, init.2 :: fq.map Prod.snd)

/-- Second half of `tridiag_solve`: seed with the last forward `f` value,
scan `reverse_scan_scal` over the reversed `(q, f)` streams with their first
(reversed) entry dropped, prepend the seed and reverse back. -/
def backward_pass (fs qs : List K) : List K :=
  let init := (fs.reverse).headD 0
  let xs := ((qs.reverse).tail).zip ((fs.reverse).tail)
  let x := (scan reverse_scan_scal init xs).2
  (init :: x).reverse

/-- `tridiag_solve(a, b, c, f)` from the notebook: forward elimination
followed by backward substitution. -/
def tridiag_solve (a b c f : List K) : List K :=
  let p := forward_pass a b c f
  backward_pass p.1 p.2

/-- The forward recurrence on indices, as the spec states it: seed
`(f 0 / b 0, -c 0 / b 0)` and step
`cff = 1/(b i + a i * q_{i-1})`, `f_i = cff*(f i - a i * f_{i-1})`,
`q_i = -cff * c i`. -/
def fqRec (a b c f : ℕ → K) : ℕ → K × K
  | 0 => (f 0 / b 0, -c 0 / b 0)
  | i + 1 =>
    let p := fqRec a b c f i
    let cff := 1 / (b (i + 1) + a (i + 1) * p.2)
    (cff * (f (i + 1) - a (i + 1) * p.1), -cff * c (i + 1))

/-- The backward recurrence counted from the last index: `k` steps before the
last row, so `xFromLast fs qs last 0 = fs last` (the seed `x_{last} = f_{last}`)
and index `last - (k+1)` satisfies `x_i = f_i + q_i * x_{i+1}`. -/
def xFromLast (fs qs : ℕ → K) (last : ℕ) : ℕ → K
  | 0 => fs last
  | k + 1 => fs (last - (k + 1)) + qs (last - (k + 1)) * xFromLast fs qs last k

/-- The successive carries of a fold, one carry per input element (the stream
of states a `scan` passes along). -/
def carries {C X : Type} (g : C → X → C) : C → List X → List C
  | _, [] => []
  | c, x :: xs => g c x :: carries g (g c x) xs

/-- Equal-length check mirroring `jnp.stack`, which raises on ragged input. -/
def zip4Checked {α : Type} (as bs cs ds : List α) : Option (List (α × α × α × α)) :=
  if as.length = bs.length ∧ as.length = cs.length ∧ as.length = ds.length then
    some (zip4 as bs cs ds)
  else none

/-- `tridiag_solve` with every partial operation made explicit: the scalar
reads `f[0]`, `b[0]`, `c[0]`, `f[-1]` become checked indexing (`head?`,
`getLast?`) and stacking requires equal lengths.  A `none` marks a branch
where the Python code would raise an indexing/shape error. -/
def tridiag_solveChecked (a b c f : List K) : Option (List K) := do
  let f0 ← f.head?
  let b0 ← b.head?
  let c0 ← c.head?
  let init := (f0 / b0, -c0 / b0)
  let xs ← zip4Checked a.tail b.tail c.tail f.tail
  let fq := (scan forward_scan_scal init xs).2
  let fs := init.1 :: fq.map Prod.fst
  let qs := init.2 :: fq.map Prod.snd
  let initb ← fs.getLast?
  let xs2 := ((qs.reverse).tail).zip ((fs.reverse).tail)
  let x := (scan reverse_scan_scal initb xs2).2
  return (initb :: x).reverse

end Solver

/-- The fixed problem size `nz = 100` set before `scal_fun` in the notebook. -/
def nz : ℕ := 100

/-- `jnp.tile(l, k)`: `k` copies of `l` concatenated. -/
def tile {α : Type} (l : List α) : ℕ → List α
  | 0 => []
  | k + 1 => l ++ tile l k

/-- `jnp.roll(l, s)`: cyclic right rotation by `s` positions (the last
`s % length` elements move to the front). -/
def roll {α : Type} (l : List α) (s : ℕ) : List α :=
  l.drop (l.length - s % l.length) ++ l.take (l.length - s % l.length)

/-- Sum of squares of a list of reals. -/
def sumSq (l : List ℝ) : ℝ := (l.map fun t => t ^ 2).sum

/-- `jnp.linalg.norm` on a vector: the Euclidean norm. -/
noncomputable def l2norm (l : List ℝ) : ℝ := Real.sqrt (sumSq l)

/-- `scal_fun(params)` from the notebook: tile the (rolled) parameter vector
to cover length `nz`, truncate to `nz`, add the offsets, solve the resulting
tridiagonal system and return the Euclidean norm of the solution. -/
noncomputable def scal_fun (params : List ℝ) : ℝ :=
  let n_tiles := nz / params.length + 1
  let a := ((tile params n_tiles).take nz).map fun t => t + 0.5
  let params_rolled1 := roll params 1
  let b := ((tile params_rolled1 n_tiles).take nz).map fun t => t + 2
  let params_rolled2 := roll params 2
  let c := ((tile params_rolled2 n_tiles).take nz).map fun t => t + 0.5
  let params_rolled3 := roll params 3
  let f := (tile params_rolled3 n_tiles).take nz
  let x := tridiag_solve a b c f
  l2norm x

/-- Modelled from the spec's description of the Problem Assembler, step 1:
entry `i` of a diagonal is `params`, cyclically rotated right by `shift`,
read cyclically at position `i` (cyclic tiling truncated to length `nz`),
plus the constant offset. -/
def specDiag (params : List ℝ) (shift : ℕ) (off : ℝ) : List ℝ :=
  (List.range nz).map fun i =>
    params.getD ((i + (params.length - shift % params.length)) % params.length) 0
      + off

/-! ## Generic lemmas about `scan`, `carries` and list indexing -/

theorem scan_snd_eq_carries {C X : Type} (g : C → X → C) (step : C → X → C × C)
    (hstep : ∀ c x, step c x = (g c x, g c x)) :
    ∀ (xs : List X) (c : C), (scan step c xs).2 = carries g c xs := by
  intro xs
  induction xs with
  | nil => intro c; rfl
  | cons x xs ih =>
    intro c
    simp only [scan, carries, hstep]
    exact congrArg _ (ih _)

theorem carries_map_range {C X : Type} (g : C → X → C) :
    ∀ (m : ℕ) (r : ℕ → C) (h : ℕ → X),
      (∀ j, r (j + 1) = g (r j) (h (j + 1))) →
      carries g (r 0) ((List.range m).map fun k => h (k + 1)) =
        (List.range m).map fun k => r (k + 1) := by
  intro m
  induction m with
  | zero => intro r h _; rfl
  | succ m ih =>
    intro r h hr
    rw [List.range_succ_eq_map]
    simp only [List.map_cons, List.map_map, carries]
    have h1 : g (r 0) (h (0 + 1)) = r 1 := (hr 0).symm
    rw [h1]
    refine congrArg (List.cons (r 1)) ?_
    have ih1 := ih (fun j => r (j + 1)) (fun j => h (j + 1)) (fun j => hr (j + 1))
    exact ih1

theorem getD_map_range {α : Type} (f : ℕ → α) (d : α) {n j : ℕ} (h : j < n) :
    ((List.range n).map f).getD j d = f j := by
  have hl : j < ((List.range n).map f).length := by simpa using h
  rw [List.getD_eq_getElem _ _ hl]
  simp

theorem getD_map_range_oob {α : Type} (f : ℕ → α) (d : α) {n j : ℕ} (h : n ≤ j) :
    ((List.range n).map f).getD j d = d := by
  apply List.getD_eq_default
  simpa using h

theorem tail_getD {α : Type} (l : List α) (k : ℕ) (d : α) :
    l.tail.getD k d = l.getD (k + 1) d := by
  cases l with
  | nil => rfl
  | cons x t => rfl

theorem headD_eq_getD {α : Type} (l : List α) (d : α) :
    l.headD d = l.getD 0 d := by
  cases l with
  | nil => rfl
  | cons x t => rfl

theorem zip4_eq_map_range {α : Type} (d : α) :
    ∀ (n : ℕ) (as bs cs ds : List α), as.length = n → bs.length = n →
      cs.length = n → ds.length = n →
      zip4 as bs cs ds = (List.range n).map fun k =>
        (as.getD k d, bs.getD k d, cs.getD k d, ds.getD k d) := by
  intro n
  induction n with
  | zero =>
    intro as bs cs ds ha hb hc hd
    rw [List.length_eq_zero] at ha hb hc hd
    subst ha; subst hb; subst hc; subst hd
    rfl
  | succ n ih =>
    intro as bs cs ds ha hb hc hd
    rcases as with _ | ⟨a, as⟩; · simp at ha
    rcases bs with _ | ⟨b, bs⟩; · simp at hb
    rcases cs with _ | ⟨c, cs⟩; · simp at hc
    rcases ds with _ | ⟨e, ds⟩; · simp at hd
    simp only [List.length_cons, Nat.succ.injEq] at ha hb hc hd
    rw [List.range_succ_eq_map]
    simp only [zip4, List.map_cons, List.map_map]
    refine congrArg _ ?_
    exact ih as bs cs ds ha hb hc hd

theorem reverse_eq_map_range {α : Type} (d : α) :
    ∀ (l : List α), l.reverse =
      (List.range l.length).map fun k => l.getD (l.length - 1 - k) d := by
  intro l
  induction l with
  | nil => rfl
  | cons x t ih =>
    simp only [List.reverse_cons, List.length_cons]
    rw [List.range_succ, List.map_append, ih]
    refine congrArg₂ _ ?_ ?_
    · apply List.map_congr_left
      intro k hk
      rw [List.mem_range] at hk
      have h1 : t.length + 1 - 1 - k = (t.length - 1 - k) + 1 := by omega
      rw [h1, List.getD_cons_succ]
    · simp

theorem reverse_map_range {α : Type} (f : ℕ → α) (n : ℕ) :
    ((List.range n).map f).reverse =
      (List.range n).map fun k => f (n - 1 - k) := by
  rw [← List.map_reverse, List.range_eq_range', List.reverse_range',
    ← List.range_eq_range', List.map_map]
  apply List.map_congr_left
  intro k hk
  rw [List.mem_range] at hk
  simp only [Function.comp]
  exact congrArg f (by omega)

theorem map_range_eq_cons {α : Type} (g : ℕ → α) (n : ℕ) (hn : 1 ≤ n) :
    (List.range n).map g = g 0 :: ((List.range (n - 1)).map fun k => g (k + 1)) := by
  obtain ⟨m, rfl⟩ : ∃ m, n = m + 1 := ⟨n - 1, by omega⟩
  rw [List.range_succ_eq_map, List.map_cons, List.map_map]
  simp only [Nat.add_sub_cancel]
  rfl

theorem headD_map_range {α : Type} (g : ℕ → α) (d : α) (n : ℕ) (hn : 1 ≤ n) :
    ((List.range n).map g).headD d = g 0 := by
  obtain ⟨m, rfl⟩ : ∃ m, n = m + 1 := ⟨n - 1, by omega⟩
  rw [List.range_succ_eq_map, List.map_cons, List.headD_cons]

theorem tail_map_range {α : Type} (g : ℕ → α) (n : ℕ) (hn : 1 ≤ n) :
    ((List.range n).map g).tail = (List.range (n - 1)).map fun k => g (k + 1) := by
  obtain ⟨m, rfl⟩ : ∃ m, n = m + 1 := ⟨n - 1, by omega⟩
  rw [List.range_succ_eq_map, List.map_cons, List.tail_cons, List.map_map]
  simp only [Nat.add_sub_cancel]
  rfl

/-! ## Characterisation of the two passes by the index recurrences -/

theorem xFromLast_congr {K : Type} [Field K] (F F' Q Q' : ℕ → K) (last : ℕ)
    (hF : ∀ j, j ≤ last → F j = F' j) (hQ : ∀ j, j < last → Q j = Q' j) :
    ∀ k, k ≤ last → xFromLast F Q last k = xFromLast F' Q' last k := by
  intro k
  induction k with
  | zero =>
    intro _
    simp only [xFromLast]
    exact hF last le_rfl
  | succ k ih =>
    intro hk
    simp only [xFromLast]
    rw [hF _ (by omega), hQ _ (by omega), ih (by omega)]

theorem forward_pass_eq {K : Type} [Field K] (a b c f : List K) {n : ℕ}
    (hn : 1 ≤ n) (ha : a.length = n) (hb : b.length = n) (hc : c.length = n)
    (hf : f.length = n) :
    forward_pass a b c f =
      ((List.range n).map fun i => (fqRec (fun j => a.getD j 0)
          (fun j => b.getD j 0) (fun j => c.getD j 0) (fun j => f.getD j 0) i).1,
       (List.range n).map fun i => (fqRec (fun j => a.getD j 0)
          (fun j => b.getD j 0) (fun j => c.getD j 0)
          (fun j => f.getD j 0) i).2) := by
  have hzip : zip4 a.tail b.tail c.tail f.tail =
      (List.range (n - 1)).map fun k =>
        (a.getD (k + 1) 0, b.getD (k + 1) 0, c.getD (k + 1) 0,
          f.getD (k + 1) 0) := by
    have h4 := zip4_eq_map_range (0 : K) (n - 1) a.tail b.tail c.tail f.tail
      (by simp [ha]) (by simp [hb]) (by simp [hc]) (by simp [hf])
    rw [h4]
    apply List.map_congr_left
    intro k _
    rw [tail_getD, tail_getD, tail_getD, tail_getD]
  have hinit : (f.headD 0 / b.headD 0, -c.headD 0 / b.headD 0) =
      fqRec (fun j => a.getD j 0) (fun j => b.getD j 0) (fun j => c.getD j 0)
        (fun j => f.getD j 0) 0 := by
    rw [headD_eq_getD, headD_eq_getD, headD_eq_getD]
    rfl
  have hcar := carries_map_range
    (fun (p : K × K) (x : K × K × K × K) => (forward_scan_scal p x).1) (n - 1)
    (fqRec (fun j => a.getD j 0) (fun j => b.getD j 0) (fun j => c.getD j 0)
      (fun j => f.getD j 0))
    (fun j => (a.getD j 0, b.getD j 0, c.getD j 0, f.getD j 0))
    (fun j => rfl)
  have hhead1 : f.headD 0 / b.headD 0 =
      (fqRec (fun j => a.getD j 0) (fun j => b.getD j 0) (fun j => c.getD j 0)
        (fun j => f.getD j 0) 0).1 := by
    rw [headD_eq_getD, headD_eq_getD]
    rfl
  have hhead2 : -c.headD 0 / b.headD 0 =
      (fqRec (fun j => a.getD j 0) (fun j => b.getD j 0) (fun j => c.getD j 0)
        (fun j => f.getD j 0) 0).2 := by
    rw [headD_eq_getD, headD_eq_getD]
    rfl
  simp only [forward_pass]
  rw [hinit, hzip,
    scan_snd_eq_carries (fun (p : K × K) x => (forward_scan_scal p x).1)
      forward_scan_scal (fun c x => rfl), hcar]
  simp only [Prod.mk.injEq, List.map_map]
  constructor
  · rw [map_range_eq_cons _ n hn]
    exact congrArg₂ List.cons hhead1 rfl
  · rw [map_range_eq_cons _ n hn]
    exact congrArg₂ List.cons hhead2 rfl

theorem backward_pass_eq {K : Type} [Field K] (fs qs : List K) {n : ℕ}
    (hn : 1 ≤ n) (hfs : fs.length = n) (hqs : qs.length = n) :
    backward_pass fs qs = (List.range n).map fun i =>
      xFromLast (fun j => fs.getD j 0) (fun j => qs.getD j 0) (n - 1)
        (n - 1 - i) := by
  have hn1 : n = (n - 1) + 1 := by omega
  have hrevf : fs.reverse = (List.range n).map fun k =>
      fs.getD (n - 1 - k) 0 := by
    have h := reverse_eq_map_range (0 : K) fs
    rw [hfs] at h
    exact h
  have hrevq : qs.reverse = (List.range n).map fun k =>
      qs.getD (n - 1 - k) 0 := by
    have h := reverse_eq_map_range (0 : K) qs
    rw [hqs] at h
    exact h
  have hcar := carries_map_range
    (fun (p : K) (x : K × K) => (reverse_scan_scal p x).1) (n - 1)
    (xFromLast (fun j => fs.getD j 0) (fun j => qs.getD j 0) (n - 1))
    (fun j => (qs.getD (n - 1 - j) 0, fs.getD (n - 1 - j) 0))
    (fun j => rfl)
  have e1 : (fs.reverse).headD 0 =
      xFromLast (fun j => fs.getD j 0) (fun j => qs.getD j 0) (n - 1) 0 := by
    rw [hrevf]
    exact headD_map_range _ 0 n hn
  have e4 : ((qs.reverse).tail).zip ((fs.reverse).tail) =
      (List.range (n - 1)).map fun k =>
        (qs.getD (n - 1 - (k + 1)) 0, fs.getD (n - 1 - (k + 1)) 0) := by
    rw [hrevf, hrevq, tail_map_range _ n hn, tail_map_range _ n hn,
      List.zip_map']
  have e5 : (scan reverse_scan_scal
        (xFromLast (fun j => fs.getD j 0) (fun j => qs.getD j 0) (n - 1) 0)
        ((List.range (n - 1)).map fun k =>
          (qs.getD (n - 1 - (k + 1)) 0, fs.getD (n - 1 - (k + 1)) 0))).2 =
      (List.range (n - 1)).map fun k =>
        xFromLast (fun j => fs.getD j 0) (fun j => qs.getD j 0) (n - 1)
          (k + 1) := by
    rw [scan_snd_eq_carries (fun (p : K) x => (reverse_scan_scal p x).1)
      reverse_scan_scal (fun c x => rfl)]
    exact hcar
  simp only [backward_pass]
  rw [e1, e4, e5,
    ← map_range_eq_cons
      (xFromLast (fun j => fs.getD j 0) (fun j => qs.getD j 0) (n - 1)) n hn,
    reverse_map_range]

theorem tridiag_solve_eq {K : Type} [Field K] (a b c f : List K) {n : ℕ}
    (hn : 1 ≤ n) (ha : a.length = n) (hb : b.length = n) (hc : c.length = n)
    (hf : f.length = n) :
    tridiag_solve a b c f = (List.range n).map fun i =>
      xFromLast
        (fun j => (fqRec (fun j => a.getD j 0) (fun j => b.getD j 0)
          (fun j => c.getD j 0) (fun j => f.getD j 0) j).1)
        (fun j => (fqRec (fun j => a.getD j 0) (fun j => b.getD j 0)
          (fun j => c.getD j 0) (fun j => f.getD j 0) j).2)
        (n - 1) (n - 1 - i) := by
  simp only [tridiag_solve]
  rw [forward_pass_eq a b c f hn ha hb hc hf]
  rw [backward_pass_eq (n := n) _ _ hn (by simp) (by simp)]
  apply List.map_congr_left
  intro i hi
  rw [List.mem_range] at hi
  apply xFromLast_congr
  · intro j hj
    exact getD_map_range _ 0 (by omega)
  · intro j hj
    exact getD_map_range _ 0 (by omega)
  · omega

/-! ## Pivot algebra for the forward recurrence -/

theorem fqRec_zero_fst {K : Type} [Field K] (A B C F : ℕ → K) (hb : B 0 ≠ 0) :
    B 0 * (fqRec A B C F 0).1 = F 0 := by
  simp only [fqRec]
  field_simp

theorem fqRec_zero_snd {K : Type} [Field K] (A B C F : ℕ → K) (hb : B 0 ≠ 0) :
    B 0 * (fqRec A B C F 0).2 = -C 0 := by
  simp only [fqRec]
  field_simp
  ring

theorem fqRec_succ_fst {K : Type} [Field K] (A B C F : ℕ → K) (j : ℕ)
    (hp : B (j + 1) + A (j + 1) * (fqRec A B C F j).2 ≠ 0) :
    (B (j + 1) + A (j + 1) * (fqRec A B C F j).2) * (fqRec A B C F (j + 1)).1 =
      F (j + 1) - A (j + 1) * (fqRec A B C F j).1 := by
  simp only [fqRec]
  rw [← mul_assoc, mul_one_div_cancel hp, one_mul]

theorem fqRec_succ_snd {K : Type} [Field K] (A B C F : ℕ → K) (j : ℕ)
    (hp : B (j + 1) + A (j + 1) * (fqRec A B C F j).2 ≠ 0) :
    (B (j + 1) + A (j + 1) * (fqRec A B C F j).2) * (fqRec A B C F (j + 1)).2 =
      -C (j + 1) := by
  simp only [fqRec]
  field_simp
  ring

theorem xFromLast_step {K : Type} [Field K] (R1 R2 : ℕ → K) (n i : ℕ)
    (h : i + 1 ≤ n - 1) :
    xFromLast R1 R2 (n - 1) (n - 1 - i) =
      R1 i + R2 i * xFromLast R1 R2 (n - 1) (n - 1 - (i + 1)) := by
  have h1 : n - 1 - i = (n - 1 - (i + 1)) + 1 := by omega
  rw [h1]
  simp only [xFromLast]
  have h2 : n - 1 - (n - 1 - (i + 1) + 1) = i := by omega
  rw [h2]

theorem fqRec_congr {K : Type} [Field K] (A A' B B' C C' F F' : ℕ → K) :
    ∀ j, (∀ i, 1 ≤ i → i ≤ j → A i = A' i) → (∀ i, i ≤ j → B i = B' i) →
      (∀ i, i < j → C i = C' i) → (∀ i, i ≤ j → F i = F' i) →
      (fqRec A B C F j).1 = (fqRec A' B' C' F' j).1 ∧
        (C j = C' j → (fqRec A B C F j).2 = (fqRec A' B' C' F' j).2) := by
  intro j
  induction j with
  | zero =>
    intro hA hB hC hF
    constructor
    · simp only [fqRec]
      rw [hB 0 le_rfl, hF 0 le_rfl]
    · intro hc0
      simp only [fqRec]
      rw [hB 0 le_rfl, hc0]
  | succ j ih =>
    intro hA hB hC hF
    obtain ⟨ih1, ih2⟩ := ih (fun i h1 h2 => hA i h1 (by omega))
      (fun i h => hB i (by omega)) (fun i h => hC i (by omega))
      (fun i h => hF i (by omega))
    have hq := ih2 (hC j (by omega))
    constructor
    · simp only [fqRec]
      rw [ih1, hq, hA (j + 1) (by omega) le_rfl, hB (j + 1) le_rfl,
        hF (j + 1) le_rfl]
    · intro hcj
      simp only [fqRec]
      rw [hq, hA (j + 1) (by omega) le_rfl, hB (j + 1) le_rfl, hcj]

/-- The tridiagonal row identities, proved for any sequence `X` that agrees
with the back-substituted forward recurrence on `0..n-1` and is `0` at `n`. -/
theorem thomas_rows {K : Type} [Field K] (A B C F : ℕ → K) (n : ℕ)
    (hn : 1 ≤ n) (hb0 : B 0 ≠ 0)
    (hpiv : ∀ i, 1 ≤ i → i < n →
      B i + A i * (fqRec A B C F (i - 1)).2 ≠ 0)
    (X : ℕ → K)
    (hX : ∀ i, i < n → X i = xFromLast (fun j => (fqRec A B C F j).1)
      (fun j => (fqRec A B C F j).2) (n - 1) (n - 1 - i))
    (hXn : X n = 0) :
    ∀ i, i < n →
      (if i = 0 then 0 else A i * X (i - 1)) + B i * X i + C i * X (i + 1)
        = F i := by
  intro i hi
  by_cases h0 : i = 0
  · subst h0
    rw [if_pos rfl]
    simp only [Nat.zero_add]
    rw [hX 0 hi]
    have e1 := fqRec_zero_fst A B C F hb0
    have e2 := fqRec_zero_snd A B C F hb0
    by_cases h1 : 1 < n
    · rw [hX 1 h1, xFromLast_step _ _ n 0 (by omega)]
      linear_combination e1 + xFromLast (fun j => (fqRec A B C F j).1)
        (fun j => (fqRec A B C F j).2) (n - 1) (n - 1 - (0 + 1)) * e2
    · have hn1 : n = 1 := by omega
      subst hn1
      rw [hXn]
      have hY0 : xFromLast (fun j => (fqRec A B C F j).1)
          (fun j => (fqRec A B C F j).2) (1 - 1) (1 - 1 - 0) =
          (fqRec A B C F 0).1 := rfl
      rw [hY0]
      linear_combination e1
  · obtain ⟨j, rfl⟩ : ∃ j, i = j + 1 := ⟨i - 1, by omega⟩
    rw [if_neg (by omega : ¬j + 1 = 0)]
    simp only [Nat.add_sub_cancel]
    have hd : B (j + 1) + A (j + 1) * (fqRec A B C F j).2 ≠ 0 := by
      have h := hpiv (j + 1) (by omega) hi
      simpa using h
    have e1 := fqRec_succ_fst A B C F j hd
    have e2 := fqRec_succ_snd A B C F j hd
    rw [hX j (by omega), hX (j + 1) hi, xFromLast_step _ _ n j (by omega)]
    by_cases hlast : j + 1 = n - 1
    · have hj2 : j + 1 + 1 = n := by omega
      rw [hj2, hXn]
      have hYj1 : xFromLast (fun j => (fqRec A B C F j).1)
          (fun j => (fqRec A B C F j).2) (n - 1) (n - 1 - (j + 1)) =
          (fqRec A B C F (j + 1)).1 := by
        have hz : n - 1 - (j + 1) = 0 := by omega
        rw [hz, hlast]
        rfl
      rw [hYj1]
      linear_combination e1
    · rw [hX (j + 1 + 1) (by omega), xFromLast_step _ _ n (j + 1) (by omega)]
      linear_combination e1 + xFromLast (fun j => (fqRec A B C F j).1)
        (fun j => (fqRec A B C F j).2) (n - 1) (n - 1 - (j + 1 + 1)) * e2

/-! ## Claim theorems -/

/-- C1: for every `n ≥ 1` and equal-length-`n` sequences `a, b, c, f` over a
field, if no zero pivot arises (`b[0] ≠ 0` and `b[i] + a[i]*q[i-1] ≠ 0` for
`i ≥ 1`), then the output `x` of `tridiag_solve` satisfies every row equation
`a[i]*x[i-1] + b[i]*x[i] + c[i]*x[i+1] = f[i]`, the out-of-range neighbours
`x[-1]` and `x[n]` being treated as `0`. -/
theorem claim_C1 {K : Type} [Field K] (a b c f : List K) (n : ℕ)
    (hn : 1 ≤ n) (ha : a.length = n) (hb : b.length = n) (hc : c.length = n)
    (hf : f.length = n) (hb0 : b.getD 0 0 ≠ 0)
    (hpiv : ∀ i, 1 ≤ i → i < n →
      b.getD i 0 + a.getD i 0 * (fqRec (fun j => a.getD j 0)
        (fun j => b.getD j 0) (fun j => c.getD j 0) (fun j => f.getD j 0)
        (i - 1)).2 ≠ 0) :
    ∀ i, i < n →
      (if i = 0 then 0
        else a.getD i 0 * (tridiag_solve a b c f).getD (i - 1) 0) +
        b.getD i 0 * (tridiag_solve a b c f).getD i 0 +
        c.getD i 0 * (tridiag_solve a b c f).getD (i + 1) 0 = f.getD i 0 := by
  have hsolve := tridiag_solve_eq a b c f hn ha hb hc hf
  apply thomas_rows (fun j => a.getD j 0) (fun j => b.getD j 0)
    (fun j => c.getD j 0) (fun j => f.getD j 0) n hn hb0 hpiv
    (fun j => (tridiag_solve a b c f).getD j 0)
  · intro i hi
    rw [hsolve]
    exact getD_map_range _ 0 hi
  · rw [hsolve]
    exact getD_map_range_oob _ 0 le_rfl

/-- C2: for `n ≥ 2` and equal-length-`n` inputs with nonzero pivots, the
forward pass computes exactly the sequences `f_0..f_{n-1}`, `q_0..q_{n-1}`
given by the seed `f_0 = f[0]/b[0]`, `q_0 = -c[0]/b[0]` and the step
`cff = 1/(b[i]+a[i]*q_{i-1})`, `f_i = cff*(f[i]-a[i]*f_{i-1})`,
`q_i = -cff*c[i]` (the recurrence `fqRec`). -/
theorem claim_C2 {K : Type} [Field K] (a b c f : List K) (n : ℕ)
    (hn : 2 ≤ n) (ha : a.length = n) (hb : b.length = n) (hc : c.length = n)
    (hf : f.length = n) (hb0 : b.getD 0 0 ≠ 0)
    (hpiv : ∀ i, 1 ≤ i → i < n →
      b.getD i 0 + a.getD i 0 * (fqRec (fun j => a.getD j 0)
        (fun j => b.getD j 0) (fun j => c.getD j 0) (fun j => f.getD j 0)
        (i - 1)).2 ≠ 0) :
    (forward_pass a b c f).1 = ((List.range n).map fun i =>
      (fqRec (fun j => a.getD j 0) (fun j => b.getD j 0)
        (fun j => c.getD j 0) (fun j => f.getD j 0) i).1) ∧
    (forward_pass a b c f).2 = ((List.range n).map fun i =>
      (fqRec (fun j => a.getD j 0) (fun j => b.getD j 0)
        (fun j => c.getD j 0) (fun j => f.getD j 0) i).2) := by
  have h := forward_pass_eq a b c f (by omega) ha hb hc hf
  exact ⟨by rw [h], by rw [h]⟩

/-- C3: for `n ≥ 1` and forward outputs `fs`, `qs` of length `n`, the
backward pass returns, in natural index order, exactly the sequence `x` with
`x_{n-1} = fs_{n-1}` and `x_i = fs_i + qs_i * x_{i+1}` for `i = n-2..0`
(the recurrence `xFromLast`, counted from the last index); in particular the
output satisfies those two recurrence equations entrywise. -/
theorem claim_C3 {K : Type} [Field K] (fs qs : List K) (n : ℕ) (hn : 1 ≤ n)
    (hfs : fs.length = n) (hqs : qs.length = n) :
    (backward_pass fs qs = (List.range n).map fun i =>
      xFromLast (fun j => fs.getD j 0) (fun j => qs.getD j 0) (n - 1)
        (n - 1 - i)) ∧
    (backward_pass fs qs).getD (n - 1) 0 = fs.getD (n - 1) 0 ∧
    ∀ i, i + 1 < n → (backward_pass fs qs).getD i 0 =
      fs.getD i 0 + qs.getD i 0 * (backward_pass fs qs).getD (i + 1) 0 := by
  have h := backward_pass_eq fs qs hn hfs hqs
  refine ⟨h, ?_, ?_⟩
  · rw [h, getD_map_range _ 0 (by omega)]
    have hz : n - 1 - (n - 1) = 0 := by omega
    rw [hz]
    rfl
  · intro i hi
    rw [h, getD_map_range _ 0 (by omega), getD_map_range _ 0 (by omega)]
    exact xFromLast_step _ _ n i (by omega)

/-- C4: for `n = 1`, the solver performs no scan step and returns exactly the
singleton `[f/b]`, for every `a0`, `c0`, `f` and every `b ≠ 0`. -/
theorem claim_C4 {K : Type} [Field K] (a0 c0 b f : K) (hb : b ≠ 0) :
    tridiag_solve [a0] [b] [c0] [f] = [f / b] := rfl

/-- C5: on the concrete 2-by-2 system `a=[0,1]`, `b=[2,2]`, `c=[1,0]`,
`f=[1,3]`, the solver returns exactly `[-1/3, 5/3]`, which is the unique
solution of `2*x0 + x1 = 1` and `x0 + 2*x1 = 3`, stated exactly over `ℚ`. -/
theorem claim_C5 :
    tridiag_solve ([0, 1] : List ℚ) [2, 2] [1, 0] [1, 3] = [-(1 / 3), 5 / 3] ∧
      (2 : ℚ) * (-(1 / 3)) + (5 / 3) = 1 ∧
      (-(1 / 3) : ℚ) + 2 * (5 / 3) = 3 := by
  refine ⟨?_, by norm_num, by norm_num⟩
  norm_num [tridiag_solve, forward_pass, backward_pass, scan, zip4,
    forward_scan_scal, reverse_scan_scal]

/-- C7: the output of `tridiag_solve` does not depend on `a[0]` and `c[n-1]`:
two runs on inputs that agree everywhere except possibly at `a[0]` and/or
`c[n-1]` return the same solution sequence. -/
theorem claim_C7 {K : Type} [Field K] (a a' b c c' f : List K) (n : ℕ)
    (hn : 1 ≤ n) (ha : a.length = n) (ha' : a'.length = n)
    (hb : b.length = n) (hc : c.length = n) (hc' : c'.length = n)
    (hf : f.length = n)
    (hA : ∀ i, 1 ≤ i → i < n → a.getD i 0 = a'.getD i 0)
    (hC : ∀ i, i < n - 1 → c.getD i 0 = c'.getD i 0) :
    tridiag_solve a b c f = tridiag_solve a' b c' f := by
  rw [tridiag_solve_eq a b c f hn ha hb hc hf,
    tridiag_solve_eq a' b c' f hn ha' hb hc' hf]
  apply List.map_congr_left
  intro i hi
  rw [List.mem_range] at hi
  apply xFromLast_congr
  · intro j hj
    exact (fqRec_congr (fun j => a.getD j 0) (fun j => a'.getD j 0)
      (fun j => b.getD j 0) (fun j => b.getD j 0)
      (fun j => c.getD j 0) (fun j => c'.getD j 0)
      (fun j => f.getD j 0) (fun j => f.getD j 0) j
      (fun i h1 h2 => hA i h1 (by omega)) (fun i _ => rfl)
      (fun i h => hC i (by omega)) (fun i _ => rfl)).1
  · intro j hj
    exact (fqRec_congr (fun j => a.getD j 0) (fun j => a'.getD j 0)
      (fun j => b.getD j 0) (fun j => b.getD j 0)
      (fun j => c.getD j 0) (fun j => c'.getD j 0)
      (fun j => f.getD j 0) (fun j => f.getD j 0) j
      (fun i h1 h2 => hA i h1 (by omega)) (fun i _ => rfl)
      (fun i h => hC i (by omega)) (fun i _ => rfl)).2 (hC j (by omega))
  · omega

/-- C9: on zero-pivot inputs the solver raises no error: it still returns a
full-length sequence whose entries are the junk values of unguarded division
by zero (here `1/0`, which is `0` in the exact embedding).  Shown both for
`b[0] = 0` (the `n = 1` system `b=[0], a=[0], c=[0], f=[1]`) and for a
broken pivot at `i = 1` (`b[1] + a[1]*q[0] = 0`). -/
theorem claim_C9 :
    tridiag_solve ([0] : List ℚ) [0] [0] [1] = [1 / 0] ∧
      (tridiag_solve ([0] : List ℚ) [0] [0] [1]).length = 1 ∧
      ([1, 1] : List ℚ).getD 1 0 + ([0, 1] : List ℚ).getD 1 0 *
        (fqRec (fun j => ([0, 1] : List ℚ).getD j 0)
          (fun j => ([1, 1] : List ℚ).getD j 0)
          (fun j => ([1, 5] : List ℚ).getD j 0)
          (fun j => ([1, 1] : List ℚ).getD j 0) 0).2 = 0 ∧
      tridiag_solve ([0, 1] : List ℚ) [1, 1] [1, 5] [1, 1] = [1, 0] ∧
      (tridiag_solve ([0, 1] : List ℚ) [1, 1] [1, 5] [1, 1]).length = 2 := by
  refine ⟨?_, by rfl, ?_, ?_, by rfl⟩ <;>
    norm_num [tridiag_solve, forward_pass, backward_pass, scan, zip4,
      forward_scan_scal, reverse_scan_scal, fqRec]

/-! ## Tiling and rolling lemmas for the problem assembler -/

theorem tile_length {α : Type} (l : List α) :
    ∀ k, (tile l k).length = k * l.length := by
  intro k
  induction k with
  | zero => simp [tile]
  | succ k ih =>
    simp only [tile, List.length_append, ih, Nat.succ_mul]
    omega

theorem tile_getD {α : Type} (l : List α) (d : α) :
    ∀ k i, i < k * l.length → (tile l k).getD i d = l.getD (i % l.length) d := by
  intro k
  induction k with
  | zero =>
    intro i h
    rw [Nat.zero_mul] at h
    omega
  | succ k ih =>
    intro i h
    by_cases hi : i < l.length
    · simp only [tile]
      rw [List.getD_append _ _ _ _ hi, Nat.mod_eq_of_lt hi]
    · have hl : l.length ≤ i := by omega
      simp only [tile]
      rw [List.getD_append_right _ _ _ _ hl]
      have hlen : (k + 1) * l.length = k * l.length + l.length := by ring
      have h2 : i - l.length < k * l.length := by omega
      rw [ih _ h2]
      congr 1
      conv_rhs => rw [← Nat.sub_add_cancel hl]
      rw [Nat.add_mod_right]

theorem take_eq_map_range {α : Type} (d : α) :
    ∀ (m : ℕ) (L : List α), m ≤ L.length →
      L.take m = (List.range m).map fun i => L.getD i d := by
  intro m
  induction m with
  | zero => intro L _; rfl
  | succ m ih =>
    intro L h
    rw [List.take_succ, ih L (by omega), List.range_succ, List.map_append]
    refine congrArg _ ?_
    have hm : m < L.length := by omega
    rw [List.getElem?_eq_getElem hm]
    simp only [List.map_cons, List.map_nil]
    rw [List.getD_eq_getElem L d hm]
    rfl

theorem roll_length {α : Type} (l : List α) (s : ℕ) :
    (roll l s).length = l.length := by
  simp only [roll, List.length_append, List.length_drop, List.length_take]
  omega

theorem roll_zero {α : Type} (l : List α) : roll l 0 = l := by
  simp [roll]

theorem roll_getD {α : Type} (l : List α) (d : α) (s j : ℕ)
    (hj : j < l.length) :
    (roll l s).getD j d =
      l.getD ((j + (l.length - s % l.length)) % l.length) d := by
  have hlen : 0 < l.length := by omega
  have hk : s % l.length < l.length := Nat.mod_lt _ hlen
  have hdlen : (l.drop (l.length - s % l.length)).length = s % l.length := by
    rw [List.length_drop]
    omega
  have htlen : (l.take (l.length - s % l.length)).length =
      l.length - s % l.length := by
    rw [List.length_take]
    omega
  by_cases hcase : j < s % l.length
  · have hb1 : j < (l.drop (l.length - s % l.length)).length := by
      rw [hdlen]
      exact hcase
    have hidx : (j + (l.length - s % l.length)) % l.length =
        (l.length - s % l.length) + j := by
      rw [Nat.mod_eq_of_lt (by omega)]
      omega
    rw [roll, List.getD_append _ _ _ _ hb1, hidx,
      List.getD_eq_getElem _ d hb1, List.getD_eq_getElem l d (by omega),
      List.getElem_drop l]
  · have hjge : s % l.length ≤ j := by omega
    have hb2 : (l.drop (l.length - s % l.length)).length ≤ j := by
      rw [hdlen]
      exact hjge
    have hidx : (j + (l.length - s % l.length)) % l.length =
        j - s % l.length := by
      have h2 : j + (l.length - s % l.length) =
          (j - s % l.length) + l.length := by omega
      rw [h2, Nat.add_mod_right, Nat.mod_eq_of_lt (by omega)]
    rw [roll, List.getD_append_right _ _ _ _ hb2, hdlen, hidx,
      List.getD_eq_getElem _ d (by rw [htlen]; omega),
      List.getD_eq_getElem l d (by omega), List.getElem_take l]

theorem assembled_core (params : List ℝ) (s : ℕ) (hd : 1 ≤ params.length) :
    (tile (roll params s) (nz / params.length + 1)).take nz =
      (List.range nz).map fun i =>
        params.getD
          ((i + (params.length - s % params.length)) % params.length) 0 := by
  have hrl : (roll params s).length = params.length := roll_length params s
  have htl : (tile (roll params s) (nz / params.length + 1)).length =
      (nz / params.length + 1) * params.length := by
    rw [tile_length, hrl]
  have hcov : nz ≤ (tile (roll params s) (nz / params.length + 1)).length := by
    rw [htl]
    have h1 := Nat.div_add_mod nz params.length
    have h2 : nz % params.length < params.length := Nat.mod_lt _ (by omega)
    have h3 : (nz / params.length + 1) * params.length =
        params.length * (nz / params.length) + params.length := by ring
    omega
  rw [take_eq_map_range 0 nz _ hcov]
  apply List.map_congr_left
  intro i hi
  rw [List.mem_range] at hi
  have hb1 : i < (nz / params.length + 1) * (roll params s).length := by
    rw [hrl]
    omega
  rw [tile_getD _ 0 _ i hb1, hrl,
    roll_getD params 0 s (i % params.length) (Nat.mod_lt _ (by omega)),
    Nat.mod_add_mod]

/-- C6: `scal_fun` equals the Euclidean norm of the solver applied to the
four diagonals described by the spec: each is `params`, cyclically rotated by
shift `0, 1, 2, 3` (for `a, b, c, f`), tiled cyclically to cover length
`nz = 100`, truncated to exactly `nz`, with offsets `+0.5`, `+2`, `+0.5`, `+0`
respectively. -/
theorem claim_C6 (params : List ℝ) (h1 : 1 ≤ params.length)
    (h2 : params.length ≤ nz) :
    scal_fun params = l2norm (tridiag_solve (specDiag params 0 0.5)
      (specDiag params 1 2) (specDiag params 2 0.5) (specDiag params 3 0)) := by
  have key : ∀ (s : ℕ) (off : ℝ),
      ((tile (roll params s) (nz / params.length + 1)).take nz).map
        (fun t => t + off) = specDiag params s off := by
    intro s off
    rw [assembled_core params s h1, List.map_map]
    rfl
  have ka : ((tile params (nz / params.length + 1)).take nz).map
      (fun t => t + (0.5 : ℝ)) = specDiag params 0 0.5 := by
    rw [show tile params (nz / params.length + 1) =
      tile (roll params 0) (nz / params.length + 1) by rw [roll_zero]]
    exact key 0 0.5
  have kf : (tile (roll params 3) (nz / params.length + 1)).take nz =
      specDiag params 3 0 := by
    rw [assembled_core params 3 h1]
    simp [specDiag]
  simp only [scal_fun]
  rw [ka, key 1 2, key 2 0.5, kf]

/-! ## Safety of the checked solver -/

theorem head?_eq_some_headD {α : Type} (l : List α) (d : α) (h : l ≠ []) :
    l.head? = some (l.headD d) := by
  cases l with
  | nil => exact absurd rfl h
  | cons x t => rfl

theorem getLast?_eq_reverse_headD {α : Type} (x : α) (l : List α) (d : α) :
    (x :: l).getLast? = some ((x :: l).reverse.headD d) := by
  rw [← List.head?_reverse]
  exact head?_eq_some_headD _ d (by simp)

/-- C10: on equal-length inputs of length `n ≥ 1`, the checked solver (whose
indexing and stacking can fail) succeeds, agrees with the total solver, and
the solution has length exactly `n`. -/
theorem claim_C10 {K : Type} [Field K] (a b c f : List K) (n : ℕ)
    (hn : 1 ≤ n) (ha : a.length = n) (hb : b.length = n) (hc : c.length = n)
    (hf : f.length = n) :
    tridiag_solveChecked a b c f = some (tridiag_solve a b c f) ∧
      (tridiag_solve a b c f).length = n := by
  constructor
  · have hfne : f ≠ [] := by
      intro h
      rw [h] at hf
      simp at hf
      omega
    have hbne : b ≠ [] := by
      intro h
      rw [h] at hb
      simp at hb
      omega
    have hcne : c ≠ [] := by
      intro h
      rw [h] at hc
      simp at hc
      omega
    have hcond : a.tail.length = b.tail.length ∧
        a.tail.length = c.tail.length ∧ a.tail.length = f.tail.length := by
      refine ⟨?_, ?_, ?_⟩ <;> simp [ha, hb, hc, hf]
    simp only [tridiag_solveChecked, zip4Checked, if_pos hcond]
    rw [head?_eq_some_headD f 0 hfne, head?_eq_some_headD b 0 hbne,
      head?_eq_some_headD c 0 hcne]
    simp only [Option.bind_eq_bind, Option.some_bind, Option.pure_def]
    rw [getLast?_eq_reverse_headD _ _ (0 : K)]
    simp only [Option.bind_eq_bind, Option.some_bind]
    rfl
  · rw [tridiag_solve_eq a b c f hn ha hb hc hf]
    simp

/-! ## Concrete witnesses -/

theorem claim_C1_witness :
    (if (1 : ℕ) = 0 then (0 : ℚ)
      else ([0, 1] : List ℚ).getD 1 0 *
        (tridiag_solve ([0, 1] : List ℚ) [2, 2] [1, 0] [1, 3]).getD (1 - 1) 0) +
      ([2, 2] : List ℚ).getD 1 0 *
        (tridiag_solve ([0, 1] : List ℚ) [2, 2] [1, 0] [1, 3]).getD 1 0 +
      ([1, 0] : List ℚ).getD 1 0 *
        (tridiag_solve ([0, 1] : List ℚ) [2, 2] [1, 0] [1, 3]).getD (1 + 1) 0 =
      ([1, 3] : List ℚ).getD 1 0 :=
  claim_C1 [0, 1] [2, 2] [1, 0] [1, 3] 2 (by norm_num) rfl rfl rfl rfl
    (by norm_num)
    (by
      intro i hi1 hi2
      have h : i = 1 := by omega
      subst h
      norm_num [fqRec])
    1 (by norm_num)

theorem claim_C2_witness :
    ((forward_pass ([0, 1] : List ℚ) [2, 2] [1, 0] [1, 3]).1 =
      ((List.range 2).map fun i =>
        (fqRec (fun j => ([0, 1] : List ℚ).getD j 0)
          (fun j => ([2, 2] : List ℚ).getD j 0)
          (fun j => ([1, 0] : List ℚ).getD j 0)
          (fun j => ([1, 3] : List ℚ).getD j 0) i).1)) ∧
    ((forward_pass ([0, 1] : List ℚ) [2, 2] [1, 0] [1, 3]).2 =
      ((List.range 2).map fun i =>
        (fqRec (fun j => ([0, 1] : List ℚ).getD j 0)
          (fun j => ([2, 2] : List ℚ).getD j 0)
          (fun j => ([1, 0] : List ℚ).getD j 0)
          (fun j => ([1, 3] : List ℚ).getD j 0) i).2)) :=
  claim_C2 [0, 1] [2, 2] [1, 0] [1, 3] 2 (by norm_num) rfl rfl rfl rfl
    (by norm_num)
    (by
      intro i hi1 hi2
      have h : i = 1 := by omega
      subst h
      norm_num [fqRec])

theorem claim_C3_witness :
    backward_pass ([1 / 2, 5 / 3] : List ℚ) [-(1 / 2), 0] =
      ((List.range 2).map fun i =>
        xFromLast (fun j => ([1 / 2, 5 / 3] : List ℚ).getD j 0)
          (fun j => ([-(1 / 2), 0] : List ℚ).getD j 0) (2 - 1) (2 - 1 - i)) :=
  (claim_C3 [1 / 2, 5 / 3] [-(1 / 2), 0] 2 (by norm_num) rfl rfl).1

theorem claim_C4_witness :
    tridiag_solve ([5] : List ℚ) [2] [7] [3] = [3 / 2] :=
  claim_C4 5 7 2 3 (by norm_num)

theorem claim_C6_witness :
    scal_fun [1] = l2norm (tridiag_solve (specDiag [1] 0 0.5)
      (specDiag [1] 1 2) (specDiag [1] 2 0.5) (specDiag [1] 3 0)) :=
  claim_C6 [1] (by norm_num) (by norm_num [nz])

theorem claim_C7_witness :
    tridiag_solve ([7, 1] : List ℚ) [2, 2] [1, 9] [1, 3] =
      tridiag_solve ([0, 1] : List ℚ) [2, 2] [1, 0] [1, 3] :=
  claim_C7 [7, 1] [0, 1] [2, 2] [1, 9] [1, 0] [1, 3] 2 (by norm_num)
    rfl rfl rfl rfl rfl rfl
    (by
      intro i h1 h2
      have h : i = 1 := by omega
      subst h
      rfl)
    (by
      intro i h
      have h0 : i = 0 := by omega
      subst h0
      rfl)

theorem claim_C10_witness :
    tridiag_solveChecked ([1] : List ℚ) [2] [3] [4] =
      some (tridiag_solve ([1] : List ℚ) [2] [3] [4]) ∧
      (tridiag_solve ([1] : List ℚ) [2] [3] [4]).length = 1 :=
  claim_C10 [1] [2] [3] [4] 1 (by norm_num) rfl rfl rfl rfl
